import Mathlib

/-!
Verification of the DiemDB `StateStore` adapter
(`core/src/pos/storage/diemdb/src/state_store/mod.rs`).

The store persists Jellyfish-Merkle tree nodes in an ordered key/value DB
whose keys are `NodeKey = (version, nibble_path)` encoded so that byte
comparison realises the order (version, path length, path bytes).  We embed:

* the node data model (`NodeKey`, `LeafNode`, `Node`) — the node types live in
  the `diem_jellyfish_merkle` crate of the same repository, modelled here from
  the spec's data-model section;
* the ordered store as an association list sorted by the codec order, with the
  seek primitives used by the source (`seek_to_first` + `next`,
  `seek_for_prev` + `next`);
* the Rightmost-Leaf Locator `get_rightmost_leaf` and the exhaustive scan
  `get_rightmost_leaf_naive`, transcribed from the source;
* the Batched Commit Engine `put_account_state_sets`, with the external tree
  engine (`JellyfishMerkleTree::put_value_sets`, not part of the adapter)
  passed in as a function argument, and the change-set accumulator and schema
  batches as explicit state;
* the raw node ingestion path `write_node_batch` / `add_node_batch`.
-/

/-- Maximum nibble-path depth of the tree: `ROOT_NIBBLE_HEIGHT` in the
jellyfish-merkle crate, i.e. the number of nibbles of a 32-byte hash. -/
def ROOT_NIBBLE_HEIGHT : Nat := 64

/-- Composite identity of one physical tree node: `(version, nibble_path)`.
A nibble path is a list of 4-bit values (modelled as `Nat`). -/
structure NodeKey where
  version : Nat
  nibble_path : List Nat
deriving DecidableEq, Repr

/-- Lexicographic strict order on nibble sequences (and on fixed-width
account-key hashes, which compare byte-lexicographically in the source). -/
def pathLtB : List Nat → List Nat → Bool
  | [], [] => false
  | [], _ :: _ => true
  | _ :: _, [] => false
  | a :: as, b :: bs => a < b || (a == b && pathLtB as bs)

/-- The NodeKey codec order: version first, then nibble-path length, then
nibble-path content.  Byte comparison of encoded keys realises exactly this
order; we state it directly on decoded keys. -/
def nodeKeyLtB (a b : NodeKey) : Bool :=
  a.version < b.version ||
    (a.version == b.version &&
      (a.nibble_path.length < b.nibble_path.length ||
        (a.nibble_path.length == b.nibble_path.length &&
          pathLtB a.nibble_path b.nibble_path)))

/-- Modelled from the spec: a Leaf node holds an AccountKey (the fixed-width
hash of an account address, as a list of 64 nibbles), the account's opaque
serialized state, plus its hash.  The node types live in the
jellyfish-merkle crate, outside this adapter. -/
structure LeafNode where
  account_key : List Nat
  value : Nat
  hash : Nat
deriving DecidableEq, Repr

/-- Modelled from the spec: a tree node is Internal or Leaf.  The algorithms
of this adapter never inspect an internal node's child pointers, only its
tag (and, for root-hash queries, its hash), so an internal node is carried
here as its hash alone. -/
inductive Node where
  | internal (hash : Nat)
  | leaf (leaf_node : LeafNode)
deriving DecidableEq, Repr

/-- The hash of a node (leaf hashes are stored; internal hashes are computed
by the tree engine and carried here as data). -/
def Node.hash : Node → Nat
  | .internal h => h
  | .leaf l => l.hash

/-- The leaf payload of a node, if it is a leaf. -/
def Node.leafData : Node → Option LeafNode
  | .internal _ => none
  | .leaf l => some l

/-- The jellyfish-merkle-node column of the physical store: entries ordered
by the NodeKey codec.  All reader algorithms consume it through the ordered
seek primitives below. -/
def NodeDb := List (NodeKey × Node)

/-- Point lookup, `self.db.get::<JellyfishMerkleNodeSchema>(node_key)`
(the `get_node_option` method of the `TreeReader` impl). -/
def get_node_option (db : List (NodeKey × Node)) (node_key : NodeKey) :
    Option Node :=
  (db.find? (fun e => e.1 == node_key)).map (fun e => e.2)

/-- Byte comparison of a full encoded key `(version, num_nibbles, path)`
against the partial probe key `(V, k)` used by `seek_for_prev`: the probe
encodes the version followed by the nibble count and *no* path bytes, so a
full key is `≤` the probe iff its version is smaller, or the version matches
and its nibble count is smaller, or both match and the path is empty (the
probe is then exactly the encoded key). -/
def keyLeProbeB (nk : NodeKey) (v k : Nat) : Bool :=
  nk.version < v ||
    (nk.version == v &&
      (nk.nibble_path.length < k ||
        (nk.nibble_path.length == k && nk.nibble_path.isEmpty)))

/-- `iter.seek_for_prev(&(v, k))` followed by `iter.next()`: the last store
entry whose encoded key is `≤` the probe. -/
def seek_for_prev_next (db : List (NodeKey × Node)) (v k : Nat) :
    Option (NodeKey × Node) :=
  (db.filter (fun e => keyLeProbeB e.1 v k)).getLast?

/-- The candidate update of the rightmost-leaf scan, shared verbatim by the
locator and the naive scan in the source: a leaf replaces the current best
iff its account key is strictly greater. -/
def pickMaxLeaf (ret : Option (NodeKey × LeafNode)) :
    Option (NodeKey × Node) → Option (NodeKey × LeafNode)
  | some (node_key, Node.leaf leaf_node) =>
    match ret with
    | none => some (node_key, leaf_node)
    | some other =>
      if pathLtB other.2.account_key leaf_node.account_key then
        some (node_key, leaf_node)
      else ret
  | _ => ret

/-- The bucket scan of `get_rightmost_leaf`: for each `num_nibbles` from `1`
to `ROOT_NIBBLE_HEIGHT + 1`, probe the last store entry strictly inside the
previous length bucket and keep the leaf with the largest account key. -/
def bucketScan (db : List (NodeKey × Node)) (version : Nat) :
    Option (NodeKey × LeafNode) :=
  (List.range' 1 (ROOT_NIBBLE_HEIGHT + 1)).foldl
    (fun ret num_nibbles =>
      pickMaxLeaf ret (seek_for_prev_next db version num_nibbles))
    none

/-- `StateStore::get_rightmost_leaf` (the `TreeReader` impl): seek to the
first key, take its version, then run the bucket scan at that version.  It
takes no version argument. -/
def get_rightmost_leaf (db : List (NodeKey × Node)) :
    Option (NodeKey × LeafNode) :=
  match db.head? with
  | none => none
  | some e => bucketScan db e.1.version

/-- `StateStore::get_rightmost_leaf_naive`: scan every store entry and keep
the leaf with the largest account key. -/
def get_rightmost_leaf_naive (db : List (NodeKey × Node)) :
    Option (NodeKey × LeafNode) :=
  db.foldl (fun ret e => pickMaxLeaf ret (some e)) none

/-! ## Root-hash queries

`get_root_hash` / `get_root_hash_option` delegate to the jellyfish-merkle
tree engine, which lives outside this adapter. -/

/-- Recoverable error taxonomy surfaced by this adapter (fatal assertion
failures are a separate, non-`Result` outcome). -/
inductive StoreErr where
  | notFound
  | storeError
deriving DecidableEq, Repr

/-- Modelled from the spec: `JellyfishMerkleTree::get_root_hash_option` — the
root of a version is the node whose NodeKey has the zero-length nibble path
at that version; the non-failing variant returns its hash, or `none` when
the version has no committed root. -/
def get_root_hash_option (db : List (NodeKey × Node)) (version : Nat) :
    Option Nat :=
  (get_node_option db ⟨version, []⟩).map Node.hash

/-- Modelled from the spec: `JellyfishMerkleTree::get_root_hash` — the
failing variant, producing NotFound when the version has no committed
root. -/
def get_root_hash (db : List (NodeKey × Node)) (version : Nat) :
    Except StoreErr Nat :=
  match get_root_hash_option db version with
  | none => .error .notFound
  | some h => .ok h

/-! ## The Batched Commit Engine and raw node ingestion

The tree engine (`JellyfishMerkleTree::put_value_sets`) is external to the
adapter; `put_account_state_sets` takes it as a function argument.  The
change set and schema batches are explicit state. -/

/-- Modelled from the spec: the AccountKey is the fixed-width hash of an
account address (`address.hash()`), a 64-nibble value.  The hash function
itself is outside this adapter; it is modelled as the 64 base-16 digits of
the address value, most significant first. -/
def natToNibbles : Nat → Nat → List Nat
  | 0, _ => []
  | n + 1, a => natToNibbles n (a / 16) ++ [a % 16]

/-- `address.hash()` of `HashAccountAddress`. -/
def addrHash (address : Nat) : List Nat := natToNibbles ROOT_NIBBLE_HEIGHT address

/-- The four ledger counters bumped by the commit engine (the real enum has
further variants; only these four are touched by this file). -/
inductive LedgerCounter where
  | newStateNodes
  | newStateLeaves
  | staleStateNodes
  | staleStateLeaves
deriving DecidableEq, Repr

/-- Per-version node statistics reported by the tree engine
(`NodeStats` of the jellyfish-merkle crate, modelled from the spec). -/
structure NodeStats where
  new_nodes : Nat
  new_leaves : Nat
  stale_nodes : Nat
  stale_leaves : Nat
deriving DecidableEq, Repr

/-- The stat a given counter is bumped by. -/
def NodeStats.counterValue (s : NodeStats) : LedgerCounter → Nat
  | .newStateNodes => s.new_nodes
  | .newStateLeaves => s.new_leaves
  | .staleStateNodes => s.stale_nodes
  | .staleStateLeaves => s.stale_leaves

/-- A row of the stale-node index: the version at which a node became
obsolete, and the superseded node's key. -/
structure StaleNodeIndex where
  stale_since_version : Nat
  node_key : NodeKey
deriving DecidableEq, Repr

/-- Modelled from the spec: the tree engine's update batch — new/changed
nodes keyed by NodeKey, superseded nodes as stale-index rows, and
per-version statistics. -/
structure TreeUpdateBatch where
  node_batch : List (NodeKey × Node)
  stale_node_index_batch : List StaleNodeIndex
  node_stats : List NodeStats
deriving DecidableEq, Repr

/-- A staged schema batch: ordered sequences of pending puts for the two
schemas this file writes (jellyfish nodes, stale-node index) plus the
counters column touched only by other subsystems. -/
structure SchemaBatch where
  nodes : List (NodeKey × Node)
  stale : List StaleNodeIndex
  counters : List (Nat × LedgerCounter × Nat)
deriving DecidableEq, Repr

/-- `SchemaBatch::new()`. -/
def SchemaBatch.new : SchemaBatch := ⟨[], [], []⟩

/-- The change set handed to `put_account_state_sets`: a schema batch plus
the per-version counter bumps, recorded as an ordered event list
`(version, counter, delta)`. -/
structure ChangeSet where
  batch : SchemaBatch
  counter_bumps : List (Nat × LedgerCounter × Nat)
deriving DecidableEq, Repr

/-- `cs.counter_bumps(version).bump(counter, delta)`. -/
def ChangeSet.bump (cs : ChangeSet) (version : Nat) (c : LedgerCounter)
    (delta : Nat) : ChangeSet :=
  { cs with counter_bumps := cs.counter_bumps ++ [(version, c, delta)] }

/-- Total delta bumped for a `(version, counter)` pair by an event list. -/
def bumpTotal : List (Nat × LedgerCounter × Nat) → Nat → LedgerCounter → Nat
  | [], _, _ => 0
  | e :: es, version, c =>
    (if e.1 = version ∧ e.2.1 = c then e.2.2 else 0) + bumpTotal es version c

/-- The durable state of the physical store: the three columns written by
this file or its callers. -/
structure StoreState where
  nodes : List (NodeKey × Node)
  stale : List StaleNodeIndex
  counters : List (Nat × LedgerCounter × Nat)
deriving DecidableEq, Repr

/-- Upsert of one node put into the ordered node column (the store keeps
keys in codec order; a put on an existing key replaces its value). -/
def insertNode : List (NodeKey × Node) → NodeKey → Node → List (NodeKey × Node)
  | [], k, v => [(k, v)]
  | e :: rest, k, v =>
    if nodeKeyLtB e.1 k then e :: insertNode rest k v
    else if e.1 == k then (k, v) :: rest
    else (k, v) :: e :: rest

/-- Order of stale-index rows: `(stale_since_version, node_key)`. -/
def staleLtB (a b : StaleNodeIndex) : Bool :=
  a.stale_since_version < b.stale_since_version ||
    (a.stale_since_version == b.stale_since_version &&
      nodeKeyLtB a.node_key b.node_key)

/-- Upsert of one stale-index put into its ordered column. -/
def insertStale : List StaleNodeIndex → StaleNodeIndex → List StaleNodeIndex
  | [], r => [r]
  | e :: rest, r =>
    if staleLtB e r then e :: insertStale rest r
    else if e == r then r :: rest
    else r :: e :: rest

/-- `self.db.write_schemas(batch)`: apply every staged put, in order, to the
durable store. -/
def write_schemas (db : StoreState) (batch : SchemaBatch) : StoreState :=
  { nodes := batch.nodes.foldl (fun m p => insertNode m p.1 p.2) db.nodes,
    stale := batch.stale.foldl (fun m r => insertStale m r) db.stale,
    counters := db.counters ++ batch.counters }

/-- `add_node_batch`: stage every `(NodeKey, Node)` pair of a node batch
into the given schema batch. -/
def add_node_batch (batch : SchemaBatch) (node_batch : List (NodeKey × Node)) :
    SchemaBatch :=
  { batch with nodes := batch.nodes ++ node_batch }

/-- `StateStore::write_node_batch` (the `TreeWriter` impl): stage the node
batch into a fresh schema batch and write it to the store. -/
def write_node_batch (db : StoreState) (node_batch : List (NodeKey × Node)) :
    StoreState :=
  write_schemas db (add_node_batch SchemaBatch.new node_batch)

/-- The type of the external tree engine's `put_value_sets`: it reads the
store (through the `TreeReader` capability, hence the read-only `StoreState`
argument), receives the hashed value sets and the first version, and returns
the new root hashes together with the tree update batch, or an error. -/
def JmtPutValueSets :=
  StoreState → List (List (List Nat × Nat)) → Nat →
    Except StoreErr (List Nat × TreeUpdateBatch)

/-- Outcome of `put_account_state_sets`: a returned root-hash vector, a
recoverable error (`Result::Err`), or a fatal assertion failure
(`assert_eq!` panic — not a `Result`). -/
inductive PutOutcome where
  | ok (roots : List Nat)
  | err (e : StoreErr)
  | panicAssert
deriving DecidableEq, Repr

/-- Result state of one `put_account_state_sets` call: the outcome, the
change set after the call, and the durable store after the call. -/
structure PutOut where
  outcome : PutOutcome
  cs : ChangeSet
  store : StoreState
deriving DecidableEq, Repr

/-- One step of the per-version counter loop: bump the four counters of
version `first_version + i` by the reported statistics. -/
def bumpStep (first_version : Nat) (acc : ChangeSet) (p : Nat × NodeStats) :
    ChangeSet :=
  (((acc.bump (first_version + p.1) .newStateNodes p.2.new_nodes).bump
      (first_version + p.1) .newStateLeaves p.2.new_leaves).bump
      (first_version + p.1) .staleStateNodes p.2.stale_nodes).bump
      (first_version + p.1) .staleStateLeaves p.2.stale_leaves

/-- `tree_update_batch.node_stats.iter().enumerate().for_each(...)`: the
counter loop of `put_account_state_sets`. -/
def stageBumps (first_version : Nat) (stats : List NodeStats)
    (cs : ChangeSet) : ChangeSet :=
  stats.enum.foldl (bumpStep first_version) cs

/-- The staging performed on the change set by `put_account_state_sets`
after a successful engine call: the counter loop, `add_node_batch` on the
change set's batch, and one stale-index put per row. -/
def stageTreeUpdate (first_version : Nat) (tree_update_batch : TreeUpdateBatch)
    (cs : ChangeSet) : ChangeSet :=
  let cs1 := stageBumps first_version tree_update_batch.node_stats cs
  let cs2 := { cs1 with
    batch := add_node_batch cs1.batch tree_update_batch.node_batch }
  { cs2 with
    batch := { cs2.batch with
      stale := cs2.batch.stale ++ tree_update_batch.stale_node_index_batch } }

/-- `StateStore::put_account_state_sets`, with the external tree engine
passed as `put_value_sets`.  Transcribed from the source: hash every address
of every write set; call the engine once; assert (fatally) that the
root-hash count equals the node-stats count; then stage counters, nodes and
stale-index rows into the change set.  No store write happens. -/
def put_account_state_sets (put_value_sets : JmtPutValueSets)
    (db : StoreState) (account_state_sets : List (List (Nat × Nat)))
    (first_version : Nat) (cs : ChangeSet) : PutOut :=
  match put_value_sets db
    (account_state_sets.map
      (fun account_states =>
        account_states.map (fun p => (addrHash p.1, p.2))))
    first_version with
  | .error e => ⟨.err e, cs, db⟩
  | .ok (new_root_hash_vec, tree_update_batch) =>
    if new_root_hash_vec.length = tree_update_batch.node_stats.length then
      ⟨.ok new_root_hash_vec,
        stageTreeUpdate first_version tree_update_batch cs, db⟩
    else ⟨.panicAssert, cs, db⟩

/-- The type of the tree engine's `get_with_proof`: value-with-proof lookup
at a version, reading nodes from the store.  The proof structure is opaque
to this adapter and carried as a `Nat`. -/
def JmtGetWithProof := StoreState → List Nat → Nat → Except StoreErr (Option Nat × Nat)

/-- `StateStore::get_account_state_with_proof_by_version`: delegate to the
tree engine at `address.hash()`. -/
def get_account_state_with_proof_by_version (get_with_proof : JmtGetWithProof)
    (db : StoreState) (address : Nat) (version : Nat) :
    Except StoreErr (Option Nat × Nat) :=
  get_with_proof db (addrHash address) version

/-! ## Specification-side definitions and concrete fixtures -/

/-- The Rightmost-Leaf Locator as claim C5 describes it: it takes a version
argument `V`; it seeks to the first key at or after `V`; if no such key
exists it returns none; and the found key's version must match the caller's
expectation — a caller querying a future or pruned version receives an empty
result.  Written from the spec's words, to compare with the source's
`get_rightmost_leaf`, which takes no version argument. -/
def get_rightmost_leaf_at (db : List (NodeKey × Node)) (V : Nat) :
    Option (NodeKey × LeafNode) :=
  match (db.filter (fun e => V ≤ e.1.version)).head? with
  | none => none
  | some e => if e.1.version = V then bucketScan db V else none

/-- The counter events appended by the counter loop of
`put_account_state_sets`, starting at enumeration index `i`. -/
def bumpsFrom (first_version i : Nat) :
    List NodeStats → List (Nat × LedgerCounter × Nat)
  | [] => []
  | s :: rest =>
    (first_version + i, .newStateNodes, s.new_nodes) ::
      (first_version + i, .newStateLeaves, s.new_leaves) ::
      (first_version + i, .staleStateNodes, s.stale_nodes) ::
      (first_version + i, .staleStateLeaves, s.stale_leaves) ::
      bumpsFrom first_version (i + 1) rest

/-- A concrete 64-nibble account key of all zeros. -/
def K0 : List Nat := List.replicate 64 0

/-- A concrete 64-nibble account key starting with nibble 3. -/
def K1 : List Nat := 3 :: List.replicate 63 0

/-- A concrete 64-nibble account key starting with nibble 7. -/
def K2 : List Nat := 7 :: List.replicate 63 0

/-- A concrete store holding one leaf at version 0. -/
def db0 : List (NodeKey × Node) := [(⟨0, []⟩, Node.leaf ⟨K0, 0, 0⟩)]

/-- A concrete single-version store: an internal root with two leaf
children. -/
def db1 : List (NodeKey × Node) :=
  [(⟨0, []⟩, Node.internal 99),
   (⟨0, [3]⟩, Node.leaf ⟨K1, 11, 21⟩),
   (⟨0, [7]⟩, Node.leaf ⟨K2, 12, 22⟩)]

/-- A concrete two-entry node batch with distinct keys. -/
def nbW : List (NodeKey × Node) :=
  [(⟨0, [1]⟩, Node.internal 7), (⟨0, [2]⟩, Node.leaf ⟨K0, 1, 2⟩)]

/-- A contract-breaking tree engine: two root hashes and two per-version
statistics regardless of how many write-sets it is given. -/
def badEngine : JmtPutValueSets :=
  fun _ _ _ => .ok ([10, 11], ⟨[], [], [⟨1, 1, 0, 0⟩, ⟨1, 1, 0, 0⟩]⟩)

/-- A tree engine whose root-hash count differs from its statistics
count. -/
def mismatchEngine : JmtPutValueSets :=
  fun _ _ _ => .ok ([10], ⟨[], [], []⟩)

/-- A tree engine reporting one version: one root hash, one new node, one
stale row, statistics (2, 1, 1, 1). -/
def engineC3 : JmtPutValueSets :=
  fun _ _ _ =>
    .ok ([10], ⟨[(⟨5, []⟩, Node.internal 4)], [⟨5, ⟨4, []⟩⟩], [⟨2, 1, 1, 1⟩]⟩)

/-! ## Order lemmas -/

theorem pathLtB_irrefl : ∀ a : List Nat, pathLtB a a = false := by
  intro a
  induction a with
  | nil => rfl
  | cons x xs ih => simp [pathLtB, ih]

theorem pathLtB_asymm : ∀ a b : List Nat,
    pathLtB a b = true → pathLtB b a = false := by
  intro a
  induction a with
  | nil => intro b h; cases b with
    | nil => simp [pathLtB] at h
    | cons y ys => rfl
  | cons x xs ih =>
    intro b h
    cases b with
    | nil => simp [pathLtB] at h
    | cons y ys =>
      rw [Bool.eq_false_iff]
      intro hba
      simp only [pathLtB, Bool.or_eq_true, Bool.and_eq_true, decide_eq_true_eq,
        beq_iff_eq] at h hba
      rcases h with h | ⟨rfl, h⟩
      · rcases hba with hba | ⟨hba, _⟩ <;> omega
      · rcases hba with hba | ⟨_, hba⟩
        · omega
        · rw [ih ys h] at hba
          exact Bool.false_ne_true hba

theorem pathLtB_trans : ∀ a b c : List Nat,
    pathLtB a b = true → pathLtB b c = true → pathLtB a c = true := by
  intro a
  induction a with
  | nil =>
    intro b c hab hbc
    cases b with
    | nil => simp [pathLtB] at hab
    | cons y ys => cases c with
      | nil => simp [pathLtB] at hbc
      | cons z zs => rfl
  | cons x xs ih =>
    intro b c hab hbc
    cases b with
    | nil => simp [pathLtB] at hab
    | cons y ys =>
      cases c with
      | nil => simp [pathLtB] at hbc
      | cons z zs =>
        simp only [pathLtB, Bool.or_eq_true, Bool.and_eq_true,
          decide_eq_true_eq, beq_iff_eq] at hab hbc ⊢
        rcases hab with hab | ⟨rfl, hab⟩
        · rcases hbc with hbc | ⟨rfl, _⟩
          · exact Or.inl (by omega)
          · exact Or.inl hab
        · rcases hbc with hbc | ⟨rfl, hbc⟩
          · exact Or.inl hbc
          · exact Or.inr ⟨rfl, ih ys zs hab hbc⟩

theorem pathLtB_total : ∀ a b : List Nat,
    pathLtB a b = false → pathLtB b a = false → a = b := by
  intro a
  induction a with
  | nil => intro b hab _; cases b with
    | nil => rfl
    | cons y ys => simp [pathLtB] at hab
  | cons x xs ih =>
    intro b hab hba
    cases b with
    | nil => simp [pathLtB] at hba
    | cons y ys =>
      simp only [pathLtB, Bool.or_eq_false_iff, Bool.and_eq_false_iff,
        decide_eq_false_iff_not, beq_eq_false_iff_ne, ne_eq] at hab hba
      obtain ⟨h1, h2⟩ := hab
      obtain ⟨h3, h4⟩ := hba
      have hxy : x = y := by omega
      subst hxy
      rcases h2 with h2 | h2
      · exact absurd rfl h2
      · rcases h4 with h4 | h4
        · exact absurd rfl h4
        · rw [ih ys h2 h4]

/-- A strict lexicographic difference between equal-length sequences is
preserved by arbitrary extensions on the right. -/
theorem pathLtB_append : ∀ a b a' b' : List Nat, a.length = b.length →
    pathLtB a b = true → pathLtB (a ++ a') (b ++ b') = true := by
  intro a
  induction a with
  | nil =>
    intro b a' b' hlen hab
    cases b with
    | nil => simp [pathLtB] at hab
    | cons y ys => simp at hlen
  | cons x xs ih =>
    intro b a' b' hlen hab
    cases b with
    | nil => simp at hlen
    | cons y ys =>
      simp only [pathLtB, Bool.or_eq_true, Bool.and_eq_true,
        decide_eq_true_eq, beq_iff_eq] at hab
      simp only [List.cons_append, pathLtB, Bool.or_eq_true, Bool.and_eq_true,
        decide_eq_true_eq, beq_iff_eq]
      rcases hab with hab | ⟨rfl, hab⟩
      · exact Or.inl hab
      · exact Or.inr ⟨rfl, ih ys a' b' (by simpa using hlen) hab⟩

theorem NodeKey.parts_eq (a b : NodeKey) (h1 : a.version = b.version)
    (h2 : a.nibble_path = b.nibble_path) : a = b := by
  cases a; cases b; simp_all

theorem nodeKeyLtB_iff (a b : NodeKey) : nodeKeyLtB a b = true ↔
    a.version < b.version ∨ (a.version = b.version ∧
      (a.nibble_path.length < b.nibble_path.length ∨
        (a.nibble_path.length = b.nibble_path.length ∧
          pathLtB a.nibble_path b.nibble_path = true))) := by
  simp [nodeKeyLtB]

theorem nodeKeyLtB_irrefl (a : NodeKey) : nodeKeyLtB a a = false := by
  simp [nodeKeyLtB, pathLtB_irrefl]

theorem nodeKeyLtB_asymm (a b : NodeKey) (h : nodeKeyLtB a b = true) :
    nodeKeyLtB b a = false := by
  rw [nodeKeyLtB_iff] at h
  rw [Bool.eq_false_iff]
  intro hba
  rw [nodeKeyLtB_iff] at hba
  rcases h with h | ⟨hv, h⟩
  · rcases hba with hba | ⟨hv, _⟩ <;> omega
  · rcases hba with hba | ⟨_, hba⟩
    · omega
    · rcases h with h | ⟨hl, h⟩
      · rcases hba with hba | ⟨_, _⟩ <;> omega
      · rcases hba with hba | ⟨_, hba⟩
        · omega
        · rw [pathLtB_asymm _ _ h] at hba
          exact Bool.false_ne_true hba

theorem nodeKeyLtB_total (a b : NodeKey) (hab : nodeKeyLtB a b = false)
    (hba : nodeKeyLtB b a = false) : a = b := by
  rw [Bool.eq_false_iff] at hab hba
  have hv : a.version = b.version := by
    by_contra hv
    rcases Nat.lt_or_ge a.version b.version with h | h
    · exact hab ((nodeKeyLtB_iff a b).mpr (Or.inl h))
    · exact hba ((nodeKeyLtB_iff b a).mpr (Or.inl (by omega)))
  have hl : a.nibble_path.length = b.nibble_path.length := by
    by_contra hl
    rcases Nat.lt_or_ge a.nibble_path.length b.nibble_path.length with h | h
    · exact hab ((nodeKeyLtB_iff a b).mpr (Or.inr ⟨hv, Or.inl h⟩))
    · exact hba ((nodeKeyLtB_iff b a).mpr (Or.inr ⟨hv.symm, Or.inl (by omega)⟩))
  have hp : a.nibble_path = b.nibble_path := by
    cases hpa : pathLtB a.nibble_path b.nibble_path with
    | true => exact absurd ((nodeKeyLtB_iff a b).mpr (Or.inr ⟨hv, Or.inr ⟨hl, hpa⟩⟩)) hab
    | false =>
      cases hpb : pathLtB b.nibble_path a.nibble_path with
      | true =>
        exact absurd ((nodeKeyLtB_iff b a).mpr (Or.inr ⟨hv.symm, Or.inr ⟨hl.symm, hpb⟩⟩)) hba
      | false => exact pathLtB_total _ _ hpa hpb
  cases a; cases b; simp_all

/-! ## Sorted-store lemmas -/

theorem mem_of_getLast?_eq {α : Type} {l : List α} {a : α}
    (h : l.getLast? = some a) : a ∈ l := by
  induction l with
  | nil => simp at h
  | cons x xs ih =>
    cases xs with
    | nil =>
      simp only [List.getLast?_singleton, Option.some.injEq] at h
      simp [h]
    | cons y ys =>
      rw [List.getLast?_cons_cons] at h
      exact List.mem_cons_of_mem x (ih h)

/-- In a list strictly sorted by the key order, an element that bounds every
other element from above is the last one. -/
theorem getLast?_eq_of_max {l : List (NodeKey × Node)} {a : NodeKey × Node}
    (hs : l.Pairwise (fun x y => nodeKeyLtB x.1 y.1 = true)) (ha : a ∈ l)
    (hmax : ∀ b ∈ l, b = a ∨ nodeKeyLtB b.1 a.1 = true) :
    l.getLast? = some a := by
  induction l with
  | nil => cases ha
  | cons x xs ih =>
    cases xs with
    | nil =>
      rcases List.mem_cons.mp ha with rfl | h0
      · rfl
      · cases h0
    | cons y ys =>
      rw [List.getLast?_cons_cons]
      have hxy : nodeKeyLtB x.1 y.1 = true := (List.pairwise_cons.mp hs).1 y (by simp)
      have hax : a ≠ x := by
        rintro rfl
        rcases hmax y (by simp) with rfl | hy
        · rw [nodeKeyLtB_irrefl] at hxy
          exact Bool.false_ne_true hxy
        · rw [nodeKeyLtB_asymm _ _ hxy] at hy
          exact Bool.false_ne_true hy
      have ha' : a ∈ y :: ys := by
        rcases List.mem_cons.mp ha with rfl | h0
        · exact absurd rfl hax
        · exact h0
      exact ih (List.pairwise_cons.mp hs).2 ha'
        (fun b hb => hmax b (List.mem_cons_of_mem x hb))

/-- Entries of a strictly sorted store are determined by their keys. -/
theorem entry_eq_of_key_eq {l : List (NodeKey × Node)} {a b : NodeKey × Node}
    (hs : l.Pairwise (fun x y => nodeKeyLtB x.1 y.1 = true)) (ha : a ∈ l)
    (hb : b ∈ l) (hk : a.1 = b.1) : a = b := by
  by_contra hne
  have hne' : (fun x y : NodeKey × Node => x.1 ≠ y.1) a b := by
    have hsym : Symmetric (fun x y : NodeKey × Node => x.1 ≠ y.1) :=
      fun x y h => fun h2 => h h2.symm
    have hs' : l.Pairwise (fun x y : NodeKey × Node => x.1 ≠ y.1) := by
      refine hs.imp ?_
      intro x y hxy hk2
      rw [hk2, nodeKeyLtB_irrefl] at hxy
      exact Bool.false_ne_true hxy
    exact hs'.forall hsym ha hb hne
  exact hne' hk

/-- A successful `seek_for_prev` probe returns a store entry satisfying the
probe bound. -/
theorem seek_for_prev_next_mem {db : List (NodeKey × Node)} {v k : Nat}
    {e : NodeKey × Node} (h : seek_for_prev_next db v k = some e) :
    e ∈ db ∧ keyLeProbeB e.1 v k = true := by
  have hmem := mem_of_getLast?_eq h
  exact ⟨(List.mem_filter.mp hmem).1, (List.mem_filter.mp hmem).2⟩

/-! ## Fold lemmas for the shared max-leaf step -/

theorem pickMaxLeaf_none_cand (s : Option (NodeKey × LeafNode)) :
    pickMaxLeaf s none = s := rfl

theorem pickMaxLeaf_internal (s : Option (NodeKey × LeafNode)) (nk : NodeKey)
    (h : Nat) : pickMaxLeaf s (some (nk, Node.internal h)) = s := rfl

theorem pickMaxLeaf_leaf_none (nk : NodeKey) (l : LeafNode) :
    pickMaxLeaf none (some (nk, Node.leaf l)) = some (nk, l) := rfl

theorem pickMaxLeaf_leaf_some (p : NodeKey × LeafNode) (nk : NodeKey)
    (l : LeafNode) :
    pickMaxLeaf (some p) (some (nk, Node.leaf l)) =
      if pathLtB p.2.account_key l.account_key then some (nk, l) else some p := rfl

/-- A fold over candidates none of which is a leaf leaves the accumulator
unchanged. -/
theorem foldl_pickMaxLeaf_no_leaf :
    ∀ (cs : List (Option (NodeKey × Node))) (s : Option (NodeKey × LeafNode)),
    (∀ c ∈ cs, ∀ nk l, c ≠ some (nk, Node.leaf l)) →
    cs.foldl pickMaxLeaf s = s := by
  intro cs
  induction cs with
  | nil => intro s _; rfl
  | cons c cs' ih =>
    intro s h
    have hc : pickMaxLeaf s c = s := by
      rcases c with _ | ⟨nk, hh | l⟩
      · rfl
      · rfl
      · exact absurd rfl (h _ (by simp) nk l)
    rw [List.foldl_cons, hc]
    exact ih s (fun c' hc' => h c' (List.mem_cons_of_mem _ hc'))

/-- The fold keeps the unique maximal leaf candidate: if every leaf
candidate is bounded by `m` (with equality only for `m` itself), and `m`
occurs among the candidates or is already the accumulator, the fold returns
`m`. -/
theorem foldl_pickMaxLeaf_max (m : NodeKey × LeafNode) :
    ∀ (cs : List (Option (NodeKey × Node))) (s : Option (NodeKey × LeafNode)),
    (∀ c ∈ cs, ∀ nk l, c = some (nk, Node.leaf l) →
      pathLtB m.2.account_key l.account_key = false ∧
        (pathLtB l.account_key m.2.account_key = false → (nk, l) = m)) →
    ((some (m.1, Node.leaf m.2) ∈ cs ∧
        (s = none ∨ ∃ p, s = some p ∧
          pathLtB p.2.account_key m.2.account_key = true)) ∨ s = some m) →
    cs.foldl pickMaxLeaf s = some m := by
  intro cs
  induction cs with
  | nil =>
    intro s _ hs
    rcases hs with ⟨hmem, _⟩ | rfl
    · cases hmem
    · rfl
  | cons c cs' ih =>
    intro s hall hs
    rw [List.foldl_cons]
    have hall' : ∀ c' ∈ cs', ∀ nk l, c' = some (nk, Node.leaf l) →
        pathLtB m.2.account_key l.account_key = false ∧
          (pathLtB l.account_key m.2.account_key = false → (nk, l) = m) :=
      fun c' hc' => hall c' (List.mem_cons_of_mem _ hc')
    rcases hs with ⟨hmem, hsnb⟩ | rfl
    · rcases List.mem_cons.mp hmem with hceq | hmem'
      · subst hceq
        apply ih _ hall'
        right
        rcases hsnb with rfl | ⟨p, rfl, hp⟩
        · rfl
        · rw [pickMaxLeaf_leaf_some, if_pos hp]
      · rcases c with _ | ⟨nk, hh | l⟩
        · rw [pickMaxLeaf_none_cand]
          exact ih _ hall' (Or.inl ⟨hmem', hsnb⟩)
        · rw [pickMaxLeaf_internal]
          exact ih _ hall' (Or.inl ⟨hmem', hsnb⟩)
        · obtain ⟨hle, heq⟩ := hall _ (by simp) nk l rfl
          by_cases hlm : (nk, l) = m
          · apply ih _ hall'
            right
            have hl2 : l = m.2 := by
              have := congrArg Prod.snd hlm
              simpa using this
            rcases hsnb with rfl | ⟨p, rfl, hp⟩
            · rw [pickMaxLeaf_leaf_none, hlm]
            · rw [pickMaxLeaf_leaf_some, hl2, if_pos hp, ← hl2, hlm]
          · have hlt : pathLtB l.account_key m.2.account_key = true := by
              cases h2 : pathLtB l.account_key m.2.account_key with
              | true => rfl
              | false => exact absurd (heq h2) hlm
            apply ih _ hall'
            left
            refine ⟨hmem', ?_⟩
            rcases hsnb with rfl | ⟨p, rfl, hp⟩
            · exact Or.inr ⟨(nk, l), by rw [pickMaxLeaf_leaf_none], hlt⟩
            · by_cases hcond : pathLtB p.2.account_key l.account_key = true
              · exact Or.inr ⟨(nk, l), by rw [pickMaxLeaf_leaf_some, if_pos hcond], hlt⟩
              · exact Or.inr ⟨p,
                  by rw [pickMaxLeaf_leaf_some, if_neg hcond], hp⟩
    · apply ih _ hall'
      right
      rcases c with _ | ⟨nk, hh | l⟩
      · rfl
      · rfl
      · obtain ⟨hle, _⟩ := hall _ (by simp) nk l rfl
        rw [pickMaxLeaf_leaf_some]
        rw [if_neg (by rw [hle]; exact Bool.false_ne_true)]

/-! ## Existence of the maximal leaf and the decisive probe -/

theorem exists_max_leaf :
    ∀ db : List (NodeKey × Node), (∃ e ∈ db, ∃ l, e.2 = Node.leaf l) →
    ∃ e ∈ db, ∃ l, e.2 = Node.leaf l ∧
      ∀ e' ∈ db, ∀ l', e'.2 = Node.leaf l' →
        pathLtB l.account_key l'.account_key = false := by
  intro db
  induction db with
  | nil => rintro ⟨e, he, _⟩; cases he
  | cons x xs ih =>
    intro _
    by_cases hxs : ∃ e ∈ xs, ∃ l, e.2 = Node.leaf l
    · obtain ⟨e, he, l, hl, hmax⟩ := ih hxs
      cases hx : x.2 with
      | internal hh =>
        refine ⟨e, List.mem_cons_of_mem x he, l, hl, ?_⟩
        intro e' he' l' hl'
        rcases List.mem_cons.mp he' with rfl | he'
        · rw [hx] at hl'
          exact Node.noConfusion hl'
        · exact hmax e' he' l' hl'
      | leaf lx =>
        cases hcmp : pathLtB lx.account_key l.account_key with
        | true =>
          refine ⟨e, List.mem_cons_of_mem x he, l, hl, ?_⟩
          intro e' he' l' hl'
          rcases List.mem_cons.mp he' with rfl | he'
          · rw [hx] at hl'
            have hlx : l' = lx := by
              have := hl'.symm
              simpa using this
            rw [hlx]
            exact pathLtB_asymm _ _ hcmp
          · exact hmax e' he' l' hl'
        | false =>
          refine ⟨x, List.mem_cons_self x xs, lx, hx, ?_⟩
          intro e' he' l' hl'
          rcases List.mem_cons.mp he' with rfl | he'
          · rw [hx] at hl'
            have hlx : l' = lx := by
              have := hl'.symm
              simpa using this
            rw [hlx]
            exact pathLtB_irrefl _
          · cases hlt : pathLtB lx.account_key l'.account_key with
            | false => rfl
            | true =>
              exfalso
              have hml' : pathLtB l.account_key l'.account_key = false :=
                hmax e' he' l' hl'
              cases hcl : pathLtB l.account_key lx.account_key with
              | true =>
                rw [pathLtB_trans _ _ _ hcl hlt] at hml'
                exact Bool.false_ne_true hml'.symm
              | false =>
                have heq : lx.account_key = l.account_key :=
                  pathLtB_total _ _ hcmp hcl
                rw [heq, hml'] at hlt
                exact Bool.false_ne_true hlt
    · obtain ⟨e, he, l, hl⟩ := ‹∃ e ∈ x :: xs, ∃ l, e.2 = Node.leaf l›
      rcases List.mem_cons.mp he with rfl | he'
      · refine ⟨e, List.mem_cons_self e xs, l, hl, ?_⟩
        intro e' he' l' hl'
        rcases List.mem_cons.mp he' with rfl | he'
        · have : l' = l := by
            rw [hl] at hl'
            simpa using hl'.symm
          rw [this]
          exact pathLtB_irrefl _
        · exact absurd ⟨e', he', l', hl'⟩ hxs
      · exact absurd ⟨e, he', l, hl⟩ hxs

/-- The decisive probe of the bucket scan: probing at one more nibble than
the rightmost leaf's path length lands exactly on the rightmost leaf. -/
theorem seek_finds_rightmost
    (db : List (NodeKey × Node)) (V : Nat)
    (hsort : db.Pairwise (fun a b => nodeKeyLtB a.1 b.1 = true))
    (hver : ∀ e ∈ db, e.1.version = V)
    (hleaf : ∀ e ∈ db, ∀ l, e.2 = Node.leaf l →
      l.account_key.take e.1.nibble_path.length = e.1.nibble_path ∧
        l.account_key.length = ROOT_NIBBLE_HEIGHT)
    (hint : ∀ e ∈ db, ∀ h, e.2 = Node.internal h → ∃ e', e' ∈ db ∧ ∃ l,
      e'.2 = Node.leaf l ∧
        e'.1.nibble_path.take e.1.nibble_path.length = e.1.nibble_path ∧
        e.1.nibble_path.length < e'.1.nibble_path.length)
    (R : NodeKey × Node) (Rl : LeafNode) (hR : R ∈ db)
    (hRl : R.2 = Node.leaf Rl)
    (hmax : ∀ e' ∈ db, ∀ l', e'.2 = Node.leaf l' →
      pathLtB Rl.account_key l'.account_key = false) :
    seek_for_prev_next db V (R.1.nibble_path.length + 1) = some R := by
  have hRtake : Rl.account_key.take R.1.nibble_path.length = R.1.nibble_path :=
    (hleaf R hR Rl hRl).1
  have hRsplit : Rl.account_key =
      R.1.nibble_path ++ Rl.account_key.drop R.1.nibble_path.length := by
    conv_lhs => rw [← List.take_append_drop R.1.nibble_path.length Rl.account_key]
    rw [hRtake]
  apply getLast?_eq_of_max (hsort.filter _)
  · rw [List.mem_filter]
    refine ⟨hR, ?_⟩
    simp [keyLeProbeB, hver R hR]
  · intro b hb
    rw [List.mem_filter] at hb
    obtain ⟨hbdb, hble⟩ := hb
    have hbv : b.1.version = V := hver b hbdb
    have hRv : R.1.version = V := hver R hR
    have hlen : b.1.nibble_path.length ≤ R.1.nibble_path.length := by
      simp only [keyLeProbeB, hbv, lt_self_iff_false, decide_False, beq_self_eq_true,
        Bool.true_and, Bool.false_or, Bool.or_eq_true, decide_eq_true_eq,
        Bool.and_eq_true, beq_iff_eq, List.isEmpty_iff] at hble
      rcases hble with h | ⟨h1, h2⟩
      · omega
      · rw [h2] at h1
        simp at h1
    rcases Nat.lt_or_ge b.1.nibble_path.length R.1.nibble_path.length with hlt | hge
    · right
      exact (nodeKeyLtB_iff b.1 R.1).mpr (Or.inr ⟨by omega, Or.inl hlt⟩)
    · have heq : b.1.nibble_path.length = R.1.nibble_path.length := by omega
      cases hpb : pathLtB b.1.nibble_path R.1.nibble_path with
      | true =>
        right
        exact (nodeKeyLtB_iff b.1 R.1).mpr (Or.inr ⟨by omega, Or.inr ⟨heq, hpb⟩⟩)
      | false =>
        cases hpR : pathLtB R.1.nibble_path b.1.nibble_path with
        | false =>
          left
          have hpeq : b.1.nibble_path = R.1.nibble_path :=
            pathLtB_total _ _ hpb hpR
          have hkeq : b.1 = R.1 := NodeKey.parts_eq _ _ (by omega) hpeq
          exact entry_eq_of_key_eq hsort hbdb hR hkeq
        | true =>
          exfalso
          cases hbshape : b.2 with
          | leaf lb =>
            have hbtake : lb.account_key.take b.1.nibble_path.length =
                b.1.nibble_path := (hleaf b hbdb lb hbshape).1
            have hbsplit : lb.account_key =
                b.1.nibble_path ++ lb.account_key.drop b.1.nibble_path.length := by
              conv_lhs =>
                rw [← List.take_append_drop b.1.nibble_path.length lb.account_key]
              rw [hbtake]
            have : pathLtB Rl.account_key lb.account_key = true := by
              rw [hRsplit, hbsplit]
              exact pathLtB_append _ _ _ _ (by omega) hpR
            rw [hmax b hbdb lb hbshape] at this
            exact Bool.false_ne_true this
          | internal hh =>
            obtain ⟨e', he', l', hl', htake', hlen'⟩ := hint b hbdb hh hbshape
            have hetake : l'.account_key.take e'.1.nibble_path.length =
                e'.1.nibble_path := (hleaf e' he' l' hl').1
            have hltake : l'.account_key.take b.1.nibble_path.length =
                b.1.nibble_path := by
              have h1 : l'.account_key.take b.1.nibble_path.length =
                  (l'.account_key.take e'.1.nibble_path.length).take
                    b.1.nibble_path.length := by
                rw [List.take_take, min_eq_left (Nat.le_of_lt hlen')]
              rw [h1, hetake, htake']
            have hlsplit : l'.account_key =
                b.1.nibble_path ++ l'.account_key.drop b.1.nibble_path.length := by
              conv_lhs =>
                rw [← List.take_append_drop b.1.nibble_path.length l'.account_key]
              rw [hltake]
            have : pathLtB Rl.account_key l'.account_key = true := by
              rw [hRsplit, hlsplit]
              exact pathLtB_append _ _ _ _ (by omega) hpR
            rw [hmax e' he' l' hl'] at this
            exact Bool.false_ne_true this

/-! ## C1 -/

/-- C1: for every store whose nodes were built from non-empty write-sets —
i.e. a store strictly sorted by the NodeKey codec order, all nodes at one
version, tree-structured (every leaf's nibble path is the prefix of its
64-nibble account key, paths are at most 64 nibbles deep, every internal
node has a strictly deeper leaf descendant, and leaf account keys are
distinct) — the Rightmost-Leaf Locator `get_rightmost_leaf` returns exactly
the result of the naive exhaustive scan `get_rightmost_leaf_naive`: the
`(NodeKey, Leaf)` pair with the maximum account key, or `none` when the
store has no leaves. -/
theorem c1_rightmost_leaf_equiv
    (db : List (NodeKey × Node)) (V : Nat)
    (hsort : db.Pairwise (fun a b => nodeKeyLtB a.1 b.1 = true))
    (hver : ∀ e ∈ db, e.1.version = V)
    (hleaf : ∀ e ∈ db, ∀ l, e.2 = Node.leaf l →
      l.account_key.take e.1.nibble_path.length = e.1.nibble_path ∧
        l.account_key.length = ROOT_NIBBLE_HEIGHT)
    (hdepth : ∀ e ∈ db, e.1.nibble_path.length ≤ ROOT_NIBBLE_HEIGHT)
    (hint : ∀ e ∈ db, ∀ h, e.2 = Node.internal h → ∃ e', e' ∈ db ∧ ∃ l,
      e'.2 = Node.leaf l ∧
        e'.1.nibble_path.take e.1.nibble_path.length = e.1.nibble_path ∧
        e.1.nibble_path.length < e'.1.nibble_path.length)
    (hinj : ∀ e₁ ∈ db, ∀ e₂ ∈ db, ∀ l₁ l₂, e₁.2 = Node.leaf l₁ →
      e₂.2 = Node.leaf l₂ → l₁.account_key = l₂.account_key → e₁ = e₂) :
    get_rightmost_leaf db = get_rightmost_leaf_naive db := by
  rcases Classical.em (∃ e ∈ db, ∃ l, e.2 = Node.leaf l) with hex | hex
  · obtain ⟨R, hR, Rl, hRl, hmax⟩ := exists_max_leaf db hex
    have hRpair : (R.1, Node.leaf Rl) = R := by
      rw [← hRl]
    have hallmem : ∀ e ∈ db, ∀ nk l, e = (nk, Node.leaf l) →
        pathLtB Rl.account_key l.account_key = false ∧
          (pathLtB l.account_key Rl.account_key = false →
            (nk, l) = (R.1, Rl)) := by
      intro e he nk l hel
      subst hel
      refine ⟨hmax _ he l rfl, ?_⟩
      intro hno
      have hkeq : l.account_key = Rl.account_key :=
        pathLtB_total _ _ hno (hmax _ he l rfl)
      have hent : (nk, Node.leaf l) = R := hinj _ he _ hR l Rl rfl hRl hkeq
      have h1 : nk = R.1 := congrArg Prod.fst hent
      have h2 : Node.leaf l = R.2 := congrArg Prod.snd hent
      rw [hRl] at h2
      have h3 : l = Rl := by simpa using h2
      rw [h1, h3]
    have hnaive : get_rightmost_leaf_naive db = some (R.1, Rl) := by
      unfold get_rightmost_leaf_naive
      have hfoldn : db.foldl (fun ret e => pickMaxLeaf ret (some e)) none =
          (db.map some).foldl pickMaxLeaf none :=
        (List.foldl_map some pickMaxLeaf db none).symm
      rw [hfoldn]
      apply foldl_pickMaxLeaf_max (R.1, Rl)
      · intro c hc nk l hcl
        obtain ⟨e, he, hce⟩ := List.mem_map.mp hc
        have he2 : e = (nk, Node.leaf l) := Option.some.inj (hce.trans hcl)
        exact hallmem e he nk l he2
      · left
        refine ⟨?_, Or.inl rfl⟩
        show some (R.1, Node.leaf Rl) ∈ db.map some
        rw [hRpair]
        exact List.mem_map_of_mem some hR
    have hloc : get_rightmost_leaf db = some (R.1, Rl) := by
      rcases hdb : db with _ | ⟨e0, rest⟩
      · rw [hdb] at hR
        cases hR
      · rw [hdb] at hsort hver hleaf hint hR hmax hallmem
        have hv0 : e0.1.version = V := hver e0 (by simp)
        have hred : get_rightmost_leaf (e0 :: rest) =
            bucketScan (e0 :: rest) e0.1.version := rfl
        rw [hred, hv0]
        unfold bucketScan
        have hfold : (List.range' 1 (ROOT_NIBBLE_HEIGHT + 1)).foldl
            (fun ret k => pickMaxLeaf ret (seek_for_prev_next (e0 :: rest) V k))
            none =
            ((List.range' 1 (ROOT_NIBBLE_HEIGHT + 1)).map
              (fun k => seek_for_prev_next (e0 :: rest) V k)).foldl
              pickMaxLeaf none :=
          (List.foldl_map _ _ _ _).symm
        rw [hfold]
        apply foldl_pickMaxLeaf_max (R.1, Rl)
        · intro c hc nk l hcl
          obtain ⟨k, hk, hck⟩ := List.mem_map.mp hc
          have hseek : seek_for_prev_next (e0 :: rest) V k =
              some (nk, Node.leaf l) := hck.trans hcl
          have hmem := (seek_for_prev_next_mem hseek).1
          exact hallmem _ hmem nk l rfl
        · left
          refine ⟨?_, Or.inl rfl⟩
          show some (R.1, Node.leaf Rl) ∈ _
          rw [List.mem_map]
          refine ⟨R.1.nibble_path.length + 1, ?_, ?_⟩
          · rw [List.mem_range'_1]
            have hd := hdepth R (by rw [hdb]; exact hR)
            constructor
            · omega
            · omega
          · rw [seek_finds_rightmost (e0 :: rest) V hsort hver hleaf hint
              R Rl hR hRl hmax, hRpair]
    rw [hloc, hnaive]
  · have hno : ∀ e ∈ db, ∀ l, e.2 ≠ Node.leaf l := by
      intro e he l hl
      exact hex ⟨e, he, l, hl⟩
    have hnaive : get_rightmost_leaf_naive db = none := by
      unfold get_rightmost_leaf_naive
      have hfoldn : db.foldl (fun ret e => pickMaxLeaf ret (some e)) none =
          (db.map some).foldl pickMaxLeaf none :=
        (List.foldl_map some pickMaxLeaf db none).symm
      rw [hfoldn]
      apply foldl_pickMaxLeaf_no_leaf
      intro c hc nk l hcl
      obtain ⟨e, he, hce⟩ := List.mem_map.mp hc
      have he2 : e = (nk, Node.leaf l) := Option.some.inj (hce.trans hcl)
      exact hno e he l (by rw [he2])
    have hloc : get_rightmost_leaf db = none := by
      rcases hdb : db with _ | ⟨e0, rest⟩
      · rfl
      · rw [hdb] at hno
        have hred : get_rightmost_leaf (e0 :: rest) =
            bucketScan (e0 :: rest) e0.1.version := rfl
        rw [hred]
        unfold bucketScan
        have hfold : (List.range' 1 (ROOT_NIBBLE_HEIGHT + 1)).foldl
            (fun ret k => pickMaxLeaf ret
              (seek_for_prev_next (e0 :: rest) e0.1.version k)) none =
            ((List.range' 1 (ROOT_NIBBLE_HEIGHT + 1)).map
              (fun k => seek_for_prev_next (e0 :: rest) e0.1.version k)).foldl
              pickMaxLeaf none :=
          (List.foldl_map _ _ _ _).symm
        rw [hfold]
        apply foldl_pickMaxLeaf_no_leaf
        intro c hc nk l hcl
        obtain ⟨k, hk, hck⟩ := List.mem_map.mp hc
        have hseek : seek_for_prev_next (e0 :: rest) e0.1.version k =
            some (nk, Node.leaf l) := hck.trans hcl
        have hmem := (seek_for_prev_next_mem hseek).1
        exact hno _ hmem l rfl
    rw [hloc, hnaive]

/-- Witness for C1: the equivalence theorem applies to the concrete store
`db1`, every hypothesis holding there. -/
theorem c1_rightmost_leaf_equiv_witness :
    get_rightmost_leaf db1 = get_rightmost_leaf_naive db1 := by
  apply c1_rightmost_leaf_equiv db1 0
  · decide
  · decide
  · intro e he l hl
    simp only [db1, List.mem_cons, List.not_mem_nil, or_false] at he
    rcases he with rfl | rfl | rfl
    · exact absurd hl (by simp)
    · injection hl with hl'
      subst hl'
      exact ⟨by decide, by decide⟩
    · injection hl with hl'
      subst hl'
      exact ⟨by decide, by decide⟩
  · decide
  · intro e he h hl
    simp only [db1, List.mem_cons, List.not_mem_nil, or_false] at he
    rcases he with rfl | rfl | rfl
    · refine ⟨(⟨0, [3]⟩, Node.leaf ⟨K1, 11, 21⟩), ?_, ⟨K1, 11, 21⟩, rfl, ?_, ?_⟩
      · simp [db1]
      · decide
      · decide
    · exact absurd hl (by simp)
    · exact absurd hl (by simp)
  · intro e1 he1 e2 he2 l1 l2 h1 h2 hk
    simp only [db1, List.mem_cons, List.not_mem_nil, or_false] at he1 he2
    rcases he1 with rfl | rfl | rfl
    · exact absurd h1 (by simp)
    · rcases he2 with rfl | rfl | rfl
      · exact absurd h2 (by simp)
      · rfl
      · exfalso
        injection h1 with h1'
        injection h2 with h2'
        rw [← h1', ← h2'] at hk
        exact absurd hk (by decide)
    · rcases he2 with rfl | rfl | rfl
      · exact absurd h2 (by simp)
      · exfalso
        injection h1 with h1'
        injection h2 with h2'
        rw [← h1', ← h2'] at hk
        exact absurd hk (by decide)
      · rfl

/-! ## Staging lemmas for the commit engine -/

theorem foldl_bumpStep_enumFrom (fv : Nat) :
    ∀ (stats : List NodeStats) (i : Nat) (cs : ChangeSet),
    (List.enumFrom i stats).foldl (bumpStep fv) cs =
      { cs with counter_bumps := cs.counter_bumps ++ bumpsFrom fv i stats } := by
  intro stats
  induction stats with
  | nil => intro i cs; simp [bumpsFrom]
  | cons s rest ih =>
    intro i cs
    show ((i, s) :: List.enumFrom (i + 1) rest).foldl (bumpStep fv) cs = _
    rw [List.foldl_cons, ih]
    simp [bumpStep, ChangeSet.bump, bumpsFrom]

theorem stageBumps_eq (fv : Nat) (stats : List NodeStats) (cs : ChangeSet) :
    stageBumps fv stats cs =
      { cs with counter_bumps := cs.counter_bumps ++ bumpsFrom fv 0 stats } :=
  foldl_bumpStep_enumFrom fv stats 0 cs

theorem stageTreeUpdate_spec (fv : Nat) (tub : TreeUpdateBatch)
    (cs : ChangeSet) :
    stageTreeUpdate fv tub cs =
      { batch := { nodes := cs.batch.nodes ++ tub.node_batch,
                   stale := cs.batch.stale ++ tub.stale_node_index_batch,
                   counters := cs.batch.counters },
        counter_bumps := cs.counter_bumps ++ bumpsFrom fv 0 tub.node_stats } := by
  unfold stageTreeUpdate add_node_batch
  rw [stageBumps_eq]

theorem bumpTotal_append (xs ys : List (Nat × LedgerCounter × Nat)) (v : Nat)
    (c : LedgerCounter) :
    bumpTotal (xs ++ ys) v c = bumpTotal xs v c + bumpTotal ys v c := by
  induction xs with
  | nil => simp [bumpTotal]
  | cons e es ih => simp [bumpTotal, ih, Nat.add_assoc]

theorem bumpsFrom_total_lt (fv : Nat) :
    ∀ (stats : List NodeStats) (i v : Nat) (c : LedgerCounter), v < fv + i →
    bumpTotal (bumpsFrom fv i stats) v c = 0 := by
  intro stats
  induction stats with
  | nil => intro i v c _; rfl
  | cons s rest ih =>
    intro i v c hv
    have h1 : ¬(fv + i = v) := by omega
    simp only [bumpsFrom, bumpTotal, h1, false_and, if_false, Nat.zero_add]
    exact ih (i + 1) v c (by omega)

theorem bumpsFrom_total (fv : Nat) :
    ∀ (stats : List NodeStats) (i j : Nat) (h : j < stats.length)
      (c : LedgerCounter),
    bumpTotal (bumpsFrom fv i stats) (fv + i + j) c =
      (stats.get ⟨j, h⟩).counterValue c := by
  intro stats
  induction stats with
  | nil => intro i j h c; exact absurd h (Nat.not_lt_zero j)
  | cons s rest ih =>
    intro i j h c
    cases j with
    | zero =>
      have h0 : bumpTotal (bumpsFrom fv (i + 1) rest) (fv + i) c = 0 :=
        bumpsFrom_total_lt fv rest (i + 1) _ c (by omega)
      cases c <;>
        simp [bumpsFrom, bumpTotal, h0, NodeStats.counterValue]
    | succ j' =>
      have hne : ¬(fv + i = fv + i + (j' + 1)) := by omega
      have h' : j' < rest.length := Nat.lt_of_succ_lt_succ h
      have harith : fv + i + (j' + 1) = fv + (i + 1) + j' := by omega
      simp only [bumpsFrom, bumpTotal, hne, false_and, if_false, Nat.zero_add]
      rw [harith, ih (i + 1) j' h' c]
      rfl

/-- Characterisation of a successful `put_account_state_sets` call. -/
theorem put_account_state_sets_ok (put_value_sets : JmtPutValueSets)
    (db : StoreState) (account_state_sets : List (List (Nat × Nat)))
    (first_version : Nat) (cs : ChangeSet) (roots : List Nat)
    (tub : TreeUpdateBatch)
    (hok : put_value_sets db
      (account_state_sets.map
        (fun account_states =>
          account_states.map (fun p => (addrHash p.1, p.2))))
      first_version = .ok (roots, tub))
    (hcard : roots.length = tub.node_stats.length) :
    put_account_state_sets put_value_sets db account_state_sets first_version
      cs = ⟨.ok roots, stageTreeUpdate first_version tub cs, db⟩ := by
  simp only [put_account_state_sets, hok]
  rw [if_pos hcard]

/-! ## C2 -/

/-- Counterexample to C2 as stated: a tree engine breaking its contract by
returning two root hashes (with two matching statistics entries) for a
single input write-set makes `put_account_state_sets` return those two
hashes as an ordinary success — the returned count differs from the
write-set count, yet no fatal assertion fires, because the source's
`assert_eq!` compares the root-hash count with the node-statistics count,
not with the write-set count. -/
theorem c2_cardinality_counterexample :
    (put_account_state_sets badEngine ⟨[], [], []⟩ [[(0, 0)]] 0
        ⟨⟨[], [], []⟩, []⟩).outcome = .ok [10, 11] ∧
      ([10, 11] : List Nat).length ≠ ([[((0 : Nat), (0 : Nat))]]).length := by
  constructor
  · rfl
  · decide

/-- C2 (amended): the returned root-hash vector is exactly the tree
engine's root-hash vector, and the fatal boundary assertion compares the
engine's root-hash count with its per-version statistics count: the call
panics (a fatal assertion failure, not a recoverable error result) exactly
when those two differ.  Equality with the input write-set count is the tree
engine's contract (one root per write-set, per the spec), not checked
here. -/
theorem c2_cardinality_assert (put_value_sets : JmtPutValueSets)
    (db : StoreState) (account_state_sets : List (List (Nat × Nat)))
    (first_version : Nat) (cs : ChangeSet) (roots : List Nat)
    (tub : TreeUpdateBatch)
    (hok : put_value_sets db
      (account_state_sets.map
        (fun account_states =>
          account_states.map (fun p => (addrHash p.1, p.2))))
      first_version = .ok (roots, tub)) :
    (put_account_state_sets put_value_sets db account_state_sets
        first_version cs).outcome =
      (if roots.length = tub.node_stats.length then .ok roots
       else .panicAssert) := by
  simp only [put_account_state_sets, hok]
  by_cases h : roots.length = tub.node_stats.length
  · rw [if_pos h, if_pos h]
  · rw [if_neg h, if_neg h]

/-- Witness for C2 (amended), exercising the fatal-assertion branch on a
concrete mismatching engine output. -/
theorem c2_cardinality_assert_witness :
    (put_account_state_sets mismatchEngine ⟨[], [], []⟩ [] 0
        ⟨⟨[], [], []⟩, []⟩).outcome =
      (if ([10] : List Nat).length = ([] : List NodeStats).length then
        PutOutcome.ok [10] else .panicAssert) :=
  c2_cardinality_assert mismatchEngine ⟨[], [], []⟩ [] 0 ⟨⟨[], [], []⟩, []⟩
    [10] ⟨[], [], []⟩ rfl

/-! ## C3 -/

/-- C3: on every successful `put_account_state_sets` call, for every
version index `i` the four CommitStatistics counters for version
`first_version + i` are bumped by exactly the tree engine's statistics for
that version, every node of the tree update batch is staged into the change
set's batch under its NodeKey, and every superseded node is staged as a
stale-node-index row recording the version at which it became stale. -/
theorem c3_put_staging (put_value_sets : JmtPutValueSets) (db : StoreState)
    (account_state_sets : List (List (Nat × Nat))) (first_version : Nat)
    (cs : ChangeSet) (roots : List Nat) (tub : TreeUpdateBatch)
    (hok : put_value_sets db
      (account_state_sets.map
        (fun account_states =>
          account_states.map (fun p => (addrHash p.1, p.2))))
      first_version = .ok (roots, tub))
    (hcard : roots.length = tub.node_stats.length) :
    (put_account_state_sets put_value_sets db account_state_sets
        first_version cs).outcome = .ok roots ∧
    (∀ (i : Nat) (h : i < tub.node_stats.length) (c : LedgerCounter),
      bumpTotal (put_account_state_sets put_value_sets db account_state_sets
          first_version cs).cs.counter_bumps (first_version + i) c =
        bumpTotal cs.counter_bumps (first_version + i) c +
          (tub.node_stats.get ⟨i, h⟩).counterValue c) ∧
    (∀ p ∈ tub.node_batch,
      p ∈ (put_account_state_sets put_value_sets db account_state_sets
        first_version cs).cs.batch.nodes) ∧
    (∀ row ∈ tub.stale_node_index_batch,
      row ∈ (put_account_state_sets put_value_sets db account_state_sets
        first_version cs).cs.batch.stale) := by
  rw [put_account_state_sets_ok put_value_sets db account_state_sets
    first_version cs roots tub hok hcard, stageTreeUpdate_spec]
  refine ⟨rfl, ?_, ?_, ?_⟩
  · intro i h c
    show bumpTotal (cs.counter_bumps ++ bumpsFrom first_version 0
      tub.node_stats) (first_version + i) c = _
    rw [bumpTotal_append]
    have harith : first_version + i = first_version + 0 + i := by omega
    rw [harith, bumpsFrom_total first_version tub.node_stats 0 i h c]
  · intro p hp
    exact List.mem_append_right _ hp
  · intro row hrow
    exact List.mem_append_right _ hrow

/-- Witness for C3 on a concrete one-version engine output. -/
theorem c3_put_staging_witness :
    (put_account_state_sets engineC3 ⟨[], [], []⟩ [[(0, 1)]] 5
        ⟨⟨[], [], []⟩, []⟩).outcome = .ok [10] ∧
    bumpTotal (put_account_state_sets engineC3 ⟨[], [], []⟩ [[(0, 1)]] 5
        ⟨⟨[], [], []⟩, []⟩).cs.counter_bumps (5 + 0)
        LedgerCounter.newStateNodes =
      bumpTotal ([] : List (Nat × LedgerCounter × Nat)) (5 + 0)
        LedgerCounter.newStateNodes + 2 ∧
    (⟨⟨5, []⟩, Node.internal 4⟩ : NodeKey × Node) ∈
      (put_account_state_sets engineC3 ⟨[], [], []⟩ [[(0, 1)]] 5
        ⟨⟨[], [], []⟩, []⟩).cs.batch.nodes ∧
    (⟨5, ⟨4, []⟩⟩ : StaleNodeIndex) ∈
      (put_account_state_sets engineC3 ⟨[], [], []⟩ [[(0, 1)]] 5
        ⟨⟨[], [], []⟩, []⟩).cs.batch.stale := by
  have h := c3_put_staging engineC3 ⟨[], [], []⟩ [[(0, 1)]] 5
    ⟨⟨[], [], []⟩, []⟩ [10]
    ⟨[(⟨5, []⟩, Node.internal 4)], [⟨5, ⟨4, []⟩⟩], [⟨2, 1, 1, 1⟩]⟩ rfl rfl
  exact ⟨h.1, h.2.1 0 (by decide) LedgerCounter.newStateNodes,
    h.2.2.1 _ (by decide), h.2.2.2 _ (by decide)⟩

/-! ## C4 -/

/-- C4: `put_account_state_sets` mutates only the passed-in change set; for
every tree engine, store, write-set sequence, first version and change set,
the durable store after the call is exactly the store before it — no
durable write happens inside this component. -/
theorem c4_put_no_durable_write (put_value_sets : JmtPutValueSets)
    (db : StoreState) (account_state_sets : List (List (Nat × Nat)))
    (first_version : Nat) (cs : ChangeSet) :
    (put_account_state_sets put_value_sets db account_state_sets
      first_version cs).store = db := by
  unfold put_account_state_sets
  split
  · rfl
  · split
    · rfl
    · rfl

/-! ## C9 -/

/-- C9: every tree operation keys on the fixed-width hash of the account
address, never on the raw address: the proof query invokes the tree engine
exactly at `addrHash address`; `put_account_state_sets` invokes the engine
exactly on the write-sets with every `(address, blob)` pair mapped to
`(addrHash address, blob)`, so engines agreeing on those hashed sets are
indistinguishable; and two addresses with the same hash are
indistinguishable to the proof query. -/
theorem c9_tree_ops_key_on_hash :
    (∀ (g : JmtGetWithProof) (db : StoreState) (address version : Nat),
      get_account_state_with_proof_by_version g db address version =
        g db (addrHash address) version) ∧
    (∀ (f₁ f₂ : JmtPutValueSets) (db : StoreState)
      (account_state_sets : List (List (Nat × Nat))) (first_version : Nat)
      (cs : ChangeSet),
      f₁ db (account_state_sets.map
          (fun account_states =>
            account_states.map (fun p => (addrHash p.1, p.2))))
          first_version =
        f₂ db (account_state_sets.map
          (fun account_states =>
            account_states.map (fun p => (addrHash p.1, p.2))))
          first_version →
      put_account_state_sets f₁ db account_state_sets first_version cs =
        put_account_state_sets f₂ db account_state_sets first_version cs) ∧
    (∀ (g : JmtGetWithProof) (db : StoreState) (a₁ a₂ version : Nat),
      addrHash a₁ = addrHash a₂ →
      get_account_state_with_proof_by_version g db a₁ version =
        get_account_state_with_proof_by_version g db a₂ version) := by
  refine ⟨fun g db a v => rfl, ?_, ?_⟩
  · intro f₁ f₂ db sets fv cs h
    unfold put_account_state_sets
    rw [h]
  · intro g db a₁ a₂ v h
    unfold get_account_state_with_proof_by_version
    rw [h]

/-- Witness for C9 at concrete engines and addresses. -/
theorem c9_tree_ops_key_on_hash_witness :
    get_account_state_with_proof_by_version (fun _ _ _ => .ok (none, 0))
        ⟨[], [], []⟩ 5 0 =
      (fun (_ : StoreState) (_ : List Nat) (_ : Nat) =>
        (.ok (none, 0) : Except StoreErr (Option Nat × Nat)))
        ⟨[], [], []⟩ (addrHash 5) 0 ∧
    put_account_state_sets mismatchEngine ⟨[], [], []⟩ [[(7, 3)]] 0
        ⟨⟨[], [], []⟩, []⟩ =
      put_account_state_sets mismatchEngine ⟨[], [], []⟩ [[(7, 3)]] 0
        ⟨⟨[], [], []⟩, []⟩ ∧
    get_account_state_with_proof_by_version (fun _ _ _ => .ok (none, 0))
        ⟨[], [], []⟩ 5 0 =
      get_account_state_with_proof_by_version (fun _ _ _ => .ok (none, 0))
        ⟨[], [], []⟩ 5 0 :=
  ⟨c9_tree_ops_key_on_hash.1 (fun _ _ _ => .ok (none, 0)) ⟨[], [], []⟩ 5 0,
    c9_tree_ops_key_on_hash.2.1 mismatchEngine mismatchEngine ⟨[], [], []⟩
      [[(7, 3)]] 0 ⟨⟨[], [], []⟩, []⟩ rfl,
    c9_tree_ops_key_on_hash.2.2 (fun _ _ _ => .ok (none, 0)) ⟨[], [], []⟩
      5 5 0 rfl⟩

/-! ## C10 -/

/-- C10: if the tree engine's `put_value_sets` call fails,
`put_account_state_sets` returns exactly that error as a recoverable
result, and the passed-in change set (and the store) are left completely
unmodified — no counter bumps, no node stagings, no stale-index
stagings. -/
theorem c10_put_error_atomicity (put_value_sets : JmtPutValueSets)
    (db : StoreState) (account_state_sets : List (List (Nat × Nat)))
    (first_version : Nat) (cs : ChangeSet) (e : StoreErr)
    (herr : put_value_sets db
      (account_state_sets.map
        (fun account_states =>
          account_states.map (fun p => (addrHash p.1, p.2))))
      first_version = .error e) :
    put_account_state_sets put_value_sets db account_state_sets
      first_version cs = ⟨.err e, cs, db⟩ := by
  simp only [put_account_state_sets, herr]

/-- Witness for C10 on a concrete always-failing engine. -/
theorem c10_put_error_atomicity_witness :
    put_account_state_sets (fun _ _ _ => .error .storeError) ⟨[], [], []⟩
      [[(0, 0)]] 0 ⟨⟨[], [], []⟩, []⟩ =
      ⟨.err .storeError, ⟨⟨[], [], []⟩, []⟩, ⟨[], [], []⟩⟩ :=
  c10_put_error_atomicity (fun _ _ _ => .error .storeError) ⟨[], [], []⟩
    [[(0, 0)]] 0 ⟨⟨[], [], []⟩, []⟩ .storeError rfl

/-! ## C5 -/

/-- Counterexample to C5 as stated: the source's `get_rightmost_leaf` takes
no version argument at all.  On the concrete store `db0`, which holds data
only at version 0, the claim's versioned locator queried at version 5 (a
version the store holds no data for) returns the claimed empty result,
while the source function — which cannot be told a version — returns the
version-0 leaf, not an empty result. -/
theorem c5_version_argument_counterexample :
    get_rightmost_leaf_at db0 5 = none ∧
      get_rightmost_leaf db0 = some (⟨0, []⟩, ⟨K0, 0, 0⟩) := by
  constructor
  · rfl
  · decide

/-- C5 (amended): `get_rightmost_leaf` takes no version argument.  It seeks
to the store's first key: an empty store yields an empty result (none, not
an error), and otherwise the bucket scan runs at the version of that first
key — the version is discovered from the store, never supplied by the
caller. -/
theorem c5_no_version_argument :
    get_rightmost_leaf ([] : List (NodeKey × Node)) = none ∧
      ∀ (e : NodeKey × Node) (db : List (NodeKey × Node)),
        get_rightmost_leaf (e :: db) = bucketScan (e :: db) e.1.version :=
  ⟨rfl, fun e db => rfl⟩

/-! ## C6 -/

/-- C6: under the precondition that the store is ordered by the NodeKey
codec order and every key carries the discovered version `V`, each
successful seek-for-prev probe `(V, k)` of the bucket scan, for `k` from 1
to `ROOT_NIBBLE_HEIGHT + 1`, lands on a key whose version is exactly `V`
and whose nibble-path length is strictly below `k` — the source's
debug-time invariants hold. -/
theorem c6_probe_invariants (db : List (NodeKey × Node)) (V k : Nat)
    (nk : NodeKey) (n : Node)
    (hk1 : 1 ≤ k) (hk2 : k ≤ ROOT_NIBBLE_HEIGHT + 1)
    (hsort : db.Pairwise (fun a b => nodeKeyLtB a.1 b.1 = true))
    (hver : ∀ e ∈ db, e.1.version = V)
    (hfound : seek_for_prev_next db V k = some (nk, n)) :
    nk.version = V ∧ nk.nibble_path.length < k := by
  obtain ⟨hmem, hle⟩ := seek_for_prev_next_mem hfound
  have hv : nk.version = V := hver _ hmem
  refine ⟨hv, ?_⟩
  simp only [keyLeProbeB, hv, lt_self_iff_false, decide_False,
    beq_self_eq_true, Bool.true_and, Bool.false_or, Bool.or_eq_true,
    decide_eq_true_eq, Bool.and_eq_true, beq_iff_eq, List.isEmpty_iff] at hle
  rcases hle with h | ⟨h1, h2⟩
  · exact h
  · rw [h2]
    simp only [List.length_nil]
    omega

/-- Witness for C6: the probe at `k = 1` on the concrete store `db1` finds
the root, whose version is 0 and path length 0 < 1. -/
theorem c6_probe_invariants_witness :
    (⟨0, []⟩ : NodeKey).version = 0 ∧
      (⟨0, []⟩ : NodeKey).nibble_path.length < 1 :=
  c6_probe_invariants db1 0 1 ⟨0, []⟩ (Node.internal 99) (by decide)
    (by decide) (by decide) (by decide) (by decide)

/-! ## C7 -/

/-- C7: on a store containing zero nodes `get_rightmost_leaf` returns none;
and for every version with no committed root (no node stored at the
zero-length nibble path), `get_root_hash_option` returns none while
`get_root_hash` fails with NotFound. -/
theorem c7_empty_behaviour :
    get_rightmost_leaf ([] : List (NodeKey × Node)) = none ∧
      ∀ (db : List (NodeKey × Node)) (version : Nat),
        get_node_option db ⟨version, []⟩ = none →
          get_root_hash_option db version = none ∧
            get_root_hash db version = .error .notFound := by
  refine ⟨rfl, ?_⟩
  intro db v h
  have h1 : get_root_hash_option db v = none := by
    unfold get_root_hash_option
    rw [h]
    rfl
  refine ⟨h1, ?_⟩
  unfold get_root_hash
  rw [h1]

/-- Witness for C7 at the empty store and version 0. -/
theorem c7_empty_behaviour_witness :
    get_rightmost_leaf ([] : List (NodeKey × Node)) = none ∧
      (get_root_hash_option ([] : List (NodeKey × Node)) 0 = none ∧
        get_root_hash ([] : List (NodeKey × Node)) 0 = .error .notFound) :=
  ⟨c7_empty_behaviour.1, c7_empty_behaviour.2 [] 0 rfl⟩

/-! ## C8 -/

theorem get_node_option_insertNode_self :
    ∀ (m : List (NodeKey × Node)) (k : NodeKey) (v : Node),
    get_node_option (insertNode m k v) k = some v := by
  intro m k v
  induction m with
  | nil =>
    simp [insertNode, get_node_option, List.find?_cons_of_pos]
  | cons e rest ih =>
    by_cases h1 : nodeKeyLtB e.1 k = true
    · have hne : (e.1 == k) = false := by
        rw [beq_eq_false_iff_ne]
        intro hkeq
        rw [hkeq, nodeKeyLtB_irrefl] at h1
        exact Bool.false_ne_true h1
      rw [show insertNode (e :: rest) k v = e :: insertNode rest k v by
        simp [insertNode, h1]]
      unfold get_node_option
      rw [List.find?_cons_of_neg _ (by simp [hne])]
      exact ih
    · by_cases h2 : (e.1 == k) = true
      · rw [show insertNode (e :: rest) k v = (k, v) :: rest by
          simp [insertNode, h1, h2]]
        unfold get_node_option
        rw [List.find?_cons_of_pos _ (by simp)]
        rfl
      · rw [show insertNode (e :: rest) k v = (k, v) :: e :: rest by
          simp [insertNode, h1, h2]]
        unfold get_node_option
        rw [List.find?_cons_of_pos _ (by simp)]
        rfl

theorem get_node_option_insertNode_other :
    ∀ (m : List (NodeKey × Node)) (k : NodeKey) (v : Node) (k' : NodeKey),
    k' ≠ k →
    get_node_option (insertNode m k v) k' = get_node_option m k' := by
  intro m k v k' hne
  have hkk : (k == k') = false := by
    rw [beq_eq_false_iff_ne]
    exact fun h => hne h.symm
  induction m with
  | nil =>
    unfold insertNode get_node_option
    rw [List.find?_cons_of_neg _ (by simp [hkk])]
  | cons e rest ih =>
    by_cases h1 : nodeKeyLtB e.1 k = true
    · rw [show insertNode (e :: rest) k v = e :: insertNode rest k v by
        simp [insertNode, h1]]
      unfold get_node_option
      by_cases he : (e.1 == k') = true
      · rw [List.find?_cons_of_pos _ (by simp [he]),
          List.find?_cons_of_pos _ (by simp [he])]
      · rw [List.find?_cons_of_neg _ (by simp [he]),
          List.find?_cons_of_neg _ (by simp [he])]
        exact ih
    · by_cases h2 : (e.1 == k) = true
      · rw [show insertNode (e :: rest) k v = (k, v) :: rest by
          simp [insertNode, h1, h2]]
        have he' : (e.1 == k') = false := by
          rw [beq_eq_false_iff_ne]
          rw [beq_iff_eq] at h2
          rw [h2]
          exact fun h => hne h.symm
        unfold get_node_option
        rw [List.find?_cons_of_neg _ (by simp [hkk]),
          List.find?_cons_of_neg _ (by simp [he'])]
      · rw [show insertNode (e :: rest) k v = (k, v) :: e :: rest by
          simp [insertNode, h1, h2]]
        unfold get_node_option
        rw [List.find?_cons_of_neg _ (by simp [hkk])]

theorem foldl_insertNode_not_mem :
    ∀ (nb : List (NodeKey × Node)) (m : List (NodeKey × Node)) (k' : NodeKey),
    (∀ q ∈ nb, k' ≠ q.1) →
    get_node_option
      (nb.foldl (fun acc p => insertNode acc p.1 p.2) m) k' =
      get_node_option m k' := by
  intro nb
  induction nb with
  | nil => intro m k' _; rfl
  | cons q rest ih =>
    intro m k' h
    rw [List.foldl_cons, ih _ k' (fun q' hq' => h q' (List.mem_cons_of_mem _ hq')),
      get_node_option_insertNode_other m q.1 q.2 k' (h q (by simp))]

theorem foldl_insertNode_lookup :
    ∀ (nb : List (NodeKey × Node)) (m : List (NodeKey × Node)),
    nb.Pairwise (fun a b => a.1 ≠ b.1) →
    ∀ p ∈ nb,
    get_node_option (nb.foldl (fun acc p => insertNode acc p.1 p.2) m) p.1 =
      some p.2 := by
  intro nb
  induction nb with
  | nil => intro m _ p hp; cases hp
  | cons q rest ih =>
    intro m hnd p hp
    rw [List.foldl_cons]
    rcases List.mem_cons.mp hp with rfl | hp'
    · rw [foldl_insertNode_not_mem rest _ p.1
        (fun q' hq' => (List.pairwise_cons.mp hnd).1 q' hq')]
      exact get_node_option_insertNode_self m p.1 p.2
    · exact ih _ (List.pairwise_cons.mp hnd).2 p hp'

/-- C8: `write_node_batch` stages exactly the supplied `(NodeKey, Node)`
pairs into one fresh schema batch — no stale-index rows and no counter
puts — and writes that batch to the store: every batched key then reads
back its node (batch keys are distinct, the source's NodeBatch being a
map), while the store's stale-index and counters columns are unchanged, so
no CommitStatistics bump and no StaleNodeIndexEntry bookkeeping happens. -/
theorem c8_write_node_batch (db : StoreState) (nb : List (NodeKey × Node)) :
    add_node_batch SchemaBatch.new nb = ⟨nb, [], []⟩ ∧
    write_node_batch db nb = write_schemas db ⟨nb, [], []⟩ ∧
    (write_node_batch db nb).stale = db.stale ∧
    (write_node_batch db nb).counters = db.counters ∧
    (nb.Pairwise (fun a b => a.1 ≠ b.1) →
      ∀ p ∈ nb,
        get_node_option (write_node_batch db nb).nodes p.1 = some p.2) := by
  have h1 : add_node_batch SchemaBatch.new nb = ⟨nb, [], []⟩ := by
    simp [add_node_batch, SchemaBatch.new]
  refine ⟨h1, ?_, ?_, ?_, ?_⟩
  · unfold write_node_batch
    rw [h1]
  · unfold write_node_batch
    rw [h1]
    rfl
  · unfold write_node_batch
    rw [h1]
    simp [write_schemas]
  · intro hnd p hp
    unfold write_node_batch
    rw [h1]
    exact foldl_insertNode_lookup nb db.nodes hnd p hp

/-- Witness for C8 on the concrete two-entry batch `nbW`. -/
theorem c8_write_node_batch_witness :
    get_node_option (write_node_batch ⟨[], [], []⟩ nbW).nodes ⟨0, [2]⟩ =
        some (Node.leaf ⟨K0, 1, 2⟩) ∧
      (write_node_batch ⟨[], [], []⟩ nbW).stale = [] ∧
      (write_node_batch ⟨[], [], []⟩ nbW).counters = [] :=
  ⟨(c8_write_node_batch ⟨[], [], []⟩ nbW).2.2.2.2 (by decide)
      (⟨0, [2]⟩, Node.leaf ⟨K0, 1, 2⟩) (by decide),
    (c8_write_node_batch ⟨[], [], []⟩ nbW).2.2.1,
    (c8_write_node_batch ⟨[], [], []⟩ nbW).2.2.2.1⟩
